import Mathlib

set_option linter.unusedSectionVars false

/-
Shallow embedding of the FSM engine in `fsm.h` (template class `FSM<T>`).

Modelling choices, each tied to the C++ source:

* `std::unordered_map<K, V>` is modelled as an association list `List (K × V)`
  with first-match lookup (`alGet`) and first-match replace-or-append update
  (`alSet`).  The only map operations the source uses are `find`, `operator[]`,
  and `emplace`, none of which depend on hash order.

* Transition predicates `std::function<bool()>` are zero-argument closures that
  read external state.  Within one `try_trigger` pass each predicate is called
  exactly once, so a pass is modelled by an environment value `e : E` and a
  predicate by a function `E → Bool`; distinct passes (the rounds of
  `timed_trigger`) receive distinct environments.

* The `int32_t` in/out edge counters are only ever initialised to 0,
  incremented, and compared with 0 (incrementing past `INT32_MAX` is undefined
  behaviour in C++, so no wraparound semantics is modelled); they are embedded
  as `Nat`.

* C++ exceptions (`invalid_state_error`, `ambiguous_state_error`) become an
  `Except`-style result; the by-reference output parameters `old_state` /
  `new_state` of `try_trigger` are threaded explicitly: the caller's current
  values go in and the possibly-updated values come out, so that claims about
  which paths write them are expressible.

* `timed_trigger`'s interaction with the outside world (predicate re-reads and
  `clock_gettime`) is modelled by a finite trace: an environment for the
  initial `try_trigger` call plus a list of rounds, each carrying the
  environment for that round's `try_trigger` and the result of that round's
  clock read (`none` = `clock_gettime` failed).  Exhausting the trace returns
  `none`, representing that the loop would keep running.
-/

namespace Qsm

variable {T : Type} {E : Type} [DecidableEq T]

/-- Errors thrown by `FSM<T>::try_trigger` (classes `invalid_state_error` and
`ambiguous_state_error` in `fsm.h`). -/
inductive FsmErr : Type where
  | invalid_state_error : FsmErr
  | ambiguous_state_error : FsmErr
deriving DecidableEq, Repr

/-- First-match lookup in an association list (models `unordered_map::find`). -/
def alGet {V : Type} : List (T × V) → T → Option V
  | [], _ => none
  | (k, v) :: rest, x => if x = k then some v else alGet rest x

/-- Replace the first entry with the given key, or append a new entry (models
`unordered_map::operator[] = v` / `emplace`). -/
def alSet {V : Type} : List (T × V) → T → V → List (T × V)
  | [], k, v => [(k, v)]
  | (k', v') :: rest, k, v =>
    if k = k' then (k, v) :: rest else (k', v') :: alSet rest k v

/-- The state of `class FSM<T>`: transition table `_trans_tbl`
(`unordered_map<T, vector<pair<T, function<bool()>>>>`), edge-degree table
`_edges_tbl` (`unordered_map<T, pair<int32_t in, int32_t out>>`), and the
current state `_state`. -/
structure FSM (T : Type) (E : Type) : Type where
  trans_tbl : List (T × List (T × (E → Bool)))
  edges_tbl : List (T × (Nat × Nat))
  state : T

/-- A freshly constructed `FSM<T>`: both tables empty.  The C++ default
constructor leaves `_state` indeterminate, modelled by an arbitrary `s0`. -/
def FSM.mk0 (E : Type) (s0 : T) : FSM T E :=
  ⟨[], [], s0⟩

/-- `FSM<T>::register_transition(pre_state, next_state, pred)` from `fsm.h`.
Rejects a self-loop, then a duplicate `(pre_state, next_state)` edge; on
acceptance appends the edge to `pre_state`'s vector, creates `(0, 0)` degree
entries for both endpoints if absent, and increments `pre_state`'s out-degree
and `next_state`'s in-degree.  (On the duplicate path the C++ `operator[]`
default-inserts an entry for `pre_state`, but a duplicate can only be detected
when that entry already exists and is non-empty, so returning the machine
unchanged is faithful.) -/
def register_transition (m : FSM T E) (pre_state next_state : T)
    (pred : E → Bool) : Bool × FSM T E :=
  if pre_state = next_state then
    (false, m)
  else
    let next_si_vec := (alGet m.trans_tbl pre_state).getD []
    if next_si_vec.any (fun si => decide (si.1 = next_state)) then
      (false, m)
    else
      let trans' := alSet m.trans_tbl pre_state (next_si_vec ++ [(next_state, pred)])
      let et1 := if (alGet m.edges_tbl pre_state).isNone then
          alSet m.edges_tbl pre_state (0, 0) else m.edges_tbl
      let et2 := if (alGet et1 next_state).isNone then
          alSet et1 next_state (0, 0) else et1
      let p1 := (alGet et2 pre_state).getD (0, 0)
      let et3 := alSet et2 pre_state (p1.1, p1.2 + 1)
      let p2 := (alGet et3 next_state).getD (0, 0)
      let et4 := alSet et3 next_state (p2.1 + 1, p2.2)
      (true, { m with trans_tbl := trans', edges_tbl := et4 })

/-- `FSM<T>::state()`. -/
def state (m : FSM T E) : T :=
  m.state

/-- `FSM<T>::set_state(init_state)`: unconditional overwrite, no validation. -/
def set_state (m : FSM T E) (init_state : T) : FSM T E :=
  { m with state := init_state }

/-- `FSM<T>::is_terminated_state(state)`: true iff the state has an entry in
`_edges_tbl` whose out-degree component is 0. -/
def is_terminated_state (m : FSM T E) (s : T) : Bool :=
  match alGet m.edges_tbl s with
  | some io => io.2 == 0
  | none => false

/-- The predicate-evaluation loop of `FSM<T>::try_trigger`: walk the edge
vector in order; on each true predicate increment `cnt` and remember the
target; after every element check `cnt > 1` and throw `ambiguous_state_error`
(modelled as `Except.error ()`) the moment it holds. -/
def scanEdges (e : E) : List (T × (E → Bool)) → Nat → T → Except Unit (Nat × T)
  | [], cnt, tmp_new_state => .ok (cnt, tmp_new_state)
  | next_si :: rest, cnt, tmp_new_state =>
    let cnt' := if next_si.2 e then cnt + 1 else cnt
    let tmp' := if next_si.2 e then next_si.1 else tmp_new_state
    if cnt' > 1 then .error () else scanEdges e rest cnt' tmp'

/-- Result of one `try_trigger` call: the returned `bool` or the thrown
exception, the final values of the by-reference `old_state` / `new_state`
arguments, and the machine afterwards. -/
structure TriggerOut (T : Type) (E : Type) : Type where
  res : Except FsmErr Bool
  old_state : T
  new_state : T
  fsm : FSM T E

/-- `FSM<T>::try_trigger(old_state, new_state)` from `fsm.h`.  `o0`/`n0` are
the values the caller's `old_state`/`new_state` variables hold on entry. -/
def try_trigger (m : FSM T E) (e : E) (o0 n0 : T) : TriggerOut T E :=
  if is_terminated_state m m.state then
    ⟨.ok true, m.state, m.state, m⟩
  else
    match alGet m.trans_tbl m.state with
    | none => ⟨.error .invalid_state_error, o0, n0, m⟩
    | some next_si_vec =>
      match scanEdges e next_si_vec 0 m.state with
      | .error _ => ⟨.error .ambiguous_state_error, o0, n0, m⟩
      | .ok (cnt, tmp_new_state) =>
        if cnt = 1 then
          ⟨.ok true, m.state, tmp_new_state, { m with state := tmp_new_state }⟩
        else
          ⟨.ok (decide (cnt ≠ 0)), o0, n0, m⟩

/-- Iterated `try_trigger` (same environment and entry values each call),
keeping only the machine; used to state idempotence at terminal states. -/
def triggerIter (e : E) (o0 n0 : T) (m : FSM T E) : Nat → FSM T E
  | 0 => m
  | k + 1 => triggerIter e o0 n0 (try_trigger m e o0 n0).fsm k

/-- A `struct timespec`. -/
structure Timespec : Type where
  tv_sec : Int
  tv_nsec : Int
deriving DecidableEq, Repr

/-- The `is_timeout_fn` lambda inside `FSM<T>::timed_trigger`. -/
def is_timeout (abs_time cur_time : Timespec) : Bool :=
  cur_time.tv_sec > abs_time.tv_sec
    || (cur_time.tv_sec == abs_time.tv_sec && cur_time.tv_nsec >= abs_time.tv_nsec)

/-- Result of `timed_trigger`: the returned `bool` or the exception propagated
out of `try_trigger`, with the final output-argument values and machine. -/
inductive TimedResult (T : Type) (E : Type) : Type where
  | ret (b : Bool) (old_state new_state : T) (fsm : FSM T E)
  | exn (err : FsmErr) (old_state new_state : T) (fsm : FSM T E)

/-- The `do { yield; try_trigger; clock_gettime; } while (!timeout)` loop of
`FSM<T>::timed_trigger`.  Each round supplies the environment for that round's
`try_trigger` and the round's clock reading (`none` = `clock_gettime`
returned nonzero).  `none` overall means the supplied trace was exhausted with
the loop still running. -/
def timed_loop (m : FSM T E) (o0 n0 : T) (abs_time : Timespec) :
    List (E × Option Timespec) → Option (TimedResult T E)
  | [] => none
  | (e, clk) :: rest =>
    let r := try_trigger m e o0 n0
    match r.res with
    | .error err => some (.exn err r.old_state r.new_state r.fsm)
    | .ok true => some (.ret true r.old_state r.new_state r.fsm)
    | .ok false =>
      match clk with
      | none => some (.ret false r.old_state r.new_state r.fsm)
      | some cur_time =>
        if is_timeout abs_time cur_time then
          some (.ret false r.old_state r.new_state r.fsm)
        else
          timed_loop r.fsm r.old_state r.new_state abs_time rest

/-- `FSM<T>::timed_trigger(old_state, new_state, abs_time)` from `fsm.h`: one
leading `try_trigger` call (environment `e0`), then the retry loop over
`rounds`. -/
def timed_trigger (m : FSM T E) (o0 n0 : T) (abs_time : Timespec) (e0 : E)
    (rounds : List (E × Option Timespec)) : Option (TimedResult T E) :=
  let r0 := try_trigger m e0 o0 n0
  match r0.res with
  | .error err => some (.exn err r0.old_state r0.new_state r0.fsm)
  | .ok true => some (.ret true r0.old_state r0.new_state r0.fsm)
  | .ok false => timed_loop r0.fsm r0.old_state r0.new_state abs_time rounds

/-- The machines reachable through the public API from a fresh `FSM<T>`. -/
inductive Reachable : FSM T E → Prop where
  | init (s0 : T) : Reachable (FSM.mk0 E s0)
  | reg {m : FSM T E} (a b : T) (p : E → Bool) :
      Reachable m → Reachable (register_transition m a b p).2
  | set {m : FSM T E} (s : T) : Reachable m → Reachable (set_state m s)
  | trig {m : FSM T E} (e : E) (o0 n0 : T) :
      Reachable m → Reachable (try_trigger m e o0 n0).fsm

/-- All registered `(source, target)` edges, read off the transition table. -/
def edgesOf : List (T × List (T × (E → Bool))) → List (T × T)
  | [] => []
  | (k, vs) :: rest => vs.map (fun si => (k, si.1)) ++ edgesOf rest

/-- Number of registered edges with source `s`. -/
def srcCnt (m : FSM T E) (s : T) : Nat :=
  (edgesOf m.trans_tbl).countP (fun q => decide (q.1 = s))

/-- Number of registered edges with target `s`. -/
def tgtCnt (m : FSM T E) (s : T) : Nat :=
  (edgesOf m.trans_tbl).countP (fun q => decide (q.2 = s))

/-- The topology table exactly mirrors the registered edge set: a recorded
entry carries the true in/out edge counts and belongs to an endpoint of at
least one edge, and a state with no entry is an endpoint of no edge. -/
def Mirror (m : FSM T E) : Prop :=
  ∀ s : T,
    (∀ i o, alGet m.edges_tbl s = some (i, o) →
      i = tgtCnt m s ∧ o = srcCnt m s ∧ 1 ≤ i + o)
    ∧ (alGet m.edges_tbl s = none → tgtCnt m s = 0 ∧ srcCnt m s = 0)

/-- Every transition-table entry is non-empty and holds exactly the edges
counted by `srcCnt` for its key. -/
def TransLen (m : FSM T E) : Prop :=
  ∀ s es, alGet m.trans_tbl s = some es → srcCnt m s = es.length ∧ es ≠ []

/-- Well-formedness invariant maintained by the API. -/
def WF (m : FSM T E) : Prop :=
  Mirror m ∧ TransLen m

/-- The four-step update of `_edges_tbl` performed by an accepted
`register_transition`, isolated for reasoning. -/
def edgesAfter (et : List (T × (Nat × Nat))) (a b : T) : List (T × (Nat × Nat)) :=
  let et1 := if (alGet et a).isNone then alSet et a (0, 0) else et
  let et2 := if (alGet et1 b).isNone then alSet et1 b (0, 0) else et1
  let p1 := (alGet et2 a).getD (0, 0)
  let et3 := alSet et2 a (p1.1, p1.2 + 1)
  let p2 := (alGet et3 b).getD (0, 0)
  alSet et3 b (p2.1 + 1, p2.2)

/-- Example machine of the spec scenario: edges 0→1 (predicate always false)
and 0→2 (predicate always true), current state 0. -/
def exOne : FSM Nat Unit :=
  set_state (register_transition
    (register_transition (FSM.mk0 Unit 0) 0 1 (fun _ => false)).2
    0 2 (fun _ => true)).2 0

/-- Example machine with two simultaneously-true predicates out of state 0. -/
def exAmb : FSM Nat Unit :=
  set_state (register_transition
    (register_transition (FSM.mk0 Unit 0) 0 1 (fun _ => true)).2
    0 2 (fun _ => true)).2 0

/-- Example machine with a single always-false edge out of state 0. -/
def exZero : FSM Nat Unit :=
  set_state (register_transition (FSM.mk0 Unit 0) 0 1 (fun _ => false)).2 0

/-- Example machine sitting on the terminal (target-only) state 1. -/
def exTerm : FSM Nat Unit :=
  set_state (register_transition (FSM.mk0 Unit 0) 0 1 (fun _ => true)).2 1

/-- Example machine with one edge 0→1 whose predicate reads the environment. -/
def exClock : FSM Nat Bool :=
  set_state (register_transition (FSM.mk0 Bool 0) 0 1 (fun e => e)).2 0

/-- Example machine with just the edge 0→1 registered. -/
def exReg1 : FSM Nat Unit :=
  (register_transition (FSM.mk0 Unit 0) 0 1 (fun _ => true)).2

/-! ### Association-list lemmas -/

theorem alGet_alSet_self {V : Type} (l : List (T × V)) (k : T) (v : V) :
    alGet (alSet l k v) k = some v := by
  induction l with
  | nil => simp [alGet, alSet]
  | cons hd tl ih =>
    obtain ⟨a, b⟩ := hd
    by_cases h : k = a
    · simp [alSet, h, alGet]
    · simp [alSet, h, alGet, ih]

theorem alGet_alSet_ne {V : Type} (l : List (T × V)) {k x : T} (v : V)
    (h : x ≠ k) : alGet (alSet l k v) x = alGet l x := by
  induction l with
  | nil => simp [alGet, alSet, h]
  | cons hd tl ih =>
    obtain ⟨a, b⟩ := hd
    by_cases hk : k = a
    · subst hk
      simp [alSet, alGet, h]
    · by_cases hx : x = a
      · simp [alSet, hk, alGet, hx]
      · simp [alSet, hk, alGet, hx, ih]

/-! ### Lemmas about the predicate-evaluation loop -/

theorem scanEdges_of_countP_zero (e : E) (es : List (T × (E → Bool)))
    (cnt : Nat) (tmp : T) (hc : cnt ≤ 1)
    (h0 : es.countP (fun q => q.2 e) = 0) :
    scanEdges e es cnt tmp = .ok (cnt, tmp) := by
  induction es generalizing cnt tmp with
  | nil => simp [scanEdges]
  | cons q rest ih =>
    rw [List.countP_cons] at h0
    have hq : q.2 e = false := by
      by_contra hb
      rw [if_pos (eq_true_of_ne_false hb)] at h0
      omega
    rw [if_neg (by simp [hq])] at h0
    have hr : rest.countP (fun q => q.2 e) = 0 := by omega
    have hgt : ¬ cnt > 1 := by omega
    simp [scanEdges, hq, hgt, ih cnt tmp hc hr]

theorem scanEdges_of_countP_one (e : E) (es : List (T × (E → Bool)))
    (tmp t : T) (p : E → Bool)
    (h1 : es.countP (fun q => q.2 e) = 1)
    (hmem : (t, p) ∈ es) (hp : p e = true) :
    scanEdges e es 0 tmp = .ok (1, t) := by
  induction es generalizing tmp with
  | nil => simp at hmem
  | cons q rest ih =>
    rw [List.countP_cons] at h1
    by_cases hq : q.2 e = true
    · rw [if_pos hq] at h1
      have hr : rest.countP (fun q => q.2 e) = 0 := by omega
      have hhead : (t, p) = q := by
        rcases List.mem_cons.mp hmem with h | h
        · exact h
        · exact absurd hp (by simpa using List.countP_eq_zero.mp hr _ h)
      have ht : q.1 = t := by rw [← hhead]
      simp [scanEdges, hq, ht, scanEdges_of_countP_zero e rest 1 t (by omega) hr]
    · rw [if_neg hq] at h1
      have hr : rest.countP (fun q => q.2 e) = 1 := by omega
      have hmem' : (t, p) ∈ rest := by
        rcases List.mem_cons.mp hmem with h | h
        · exact absurd hp (by rw [← h] at hq; simpa using hq)
        · exact h
      simp [scanEdges, hq, ih tmp hr hmem']

theorem scanEdges_of_countP_ge_two (e : E) (es : List (T × (E → Bool)))
    (cnt : Nat) (tmp : T) (hc : cnt ≤ 1)
    (h2 : 2 ≤ cnt + es.countP (fun q => q.2 e)) :
    scanEdges e es cnt tmp = .error () := by
  induction es generalizing cnt tmp with
  | nil => simp at h2; omega
  | cons q rest ih =>
    rw [List.countP_cons] at h2
    by_cases hq : q.2 e = true
    · rw [if_pos hq] at h2
      by_cases hcnt : cnt = 1
      · simp [scanEdges, hq, hcnt]
      · have hc0 : cnt = 0 := by omega
        subst hc0
        have h2' : 2 ≤ 1 + rest.countP (fun q => q.2 e) := by omega
        simp [scanEdges, hq, ih 1 q.1 (by omega) h2']
    · rw [if_neg hq] at h2
      have hq' : q.2 e = false := eq_false_of_ne_true hq
      have h2' : 2 ≤ cnt + rest.countP (fun q => q.2 e) := by omega
      have hgt : ¬ cnt > 1 := by omega
      simp [scanEdges, hq', hgt, ih cnt tmp hc h2']

theorem scanEdges_ok_le_one (e : E) (es : List (T × (E → Bool)))
    (cnt : Nat) (tmp : T) (c : Nat) (t : T) (hc : cnt ≤ 1)
    (h : scanEdges e es cnt tmp = .ok (c, t)) : c ≤ 1 := by
  induction es generalizing cnt tmp with
  | nil =>
    simp [scanEdges] at h
    omega
  | cons q rest ih =>
    by_cases hq : q.2 e = true
    · by_cases hcnt : cnt + 1 > 1
      · simp [scanEdges, hq, hcnt] at h
      · exact ih (cnt + 1) q.1 (by omega) (by simpa [scanEdges, hq, hcnt] using h)
    · have hq' : q.2 e = false := eq_false_of_ne_true hq
      have hgt : ¬ cnt > 1 := by omega
      exact ih cnt tmp hc (by simpa [scanEdges, hq', hgt] using h)

/-! ### Frame lemmas for `try_trigger` -/

theorem try_trigger_tables (m : FSM T E) (e : E) (o0 n0 : T) :
    (try_trigger m e o0 n0).fsm.trans_tbl = m.trans_tbl ∧
    (try_trigger m e o0 n0).fsm.edges_tbl = m.edges_tbl := by
  unfold try_trigger
  split
  · exact ⟨rfl, rfl⟩
  · split
    · exact ⟨rfl, rfl⟩
    · split
      · exact ⟨rfl, rfl⟩
      · split <;> exact ⟨rfl, rfl⟩

theorem try_trigger_false_frame (m : FSM T E) (e : E) (o0 n0 : T)
    (h : (try_trigger m e o0 n0).res = .ok false) :
    try_trigger m e o0 n0 = ⟨.ok false, o0, n0, m⟩ := by
  by_cases hterm : is_terminated_state m m.state = true
  · simp [try_trigger, hterm] at h
  · cases hg : alGet m.trans_tbl m.state with
    | none => simp [try_trigger, hterm, hg] at h
    | some vec =>
      cases hs : scanEdges e vec 0 m.state with
      | error u => simp [try_trigger, hterm, hg, hs] at h
      | ok ct =>
        obtain ⟨cnt, tmp⟩ := ct
        by_cases hcnt : cnt = 1
        · simp [try_trigger, hterm, hg, hs, hcnt] at h
        · simp only [try_trigger, hterm, hg, hs, hcnt] at h ⊢
          simp at h
          simp [h]

theorem try_trigger_error_frame (m : FSM T E) (e : E) (o0 n0 : T)
    (err : FsmErr) (h : (try_trigger m e o0 n0).res = .error err) :
    try_trigger m e o0 n0 = ⟨.error err, o0, n0, m⟩ := by
  by_cases hterm : is_terminated_state m m.state = true
  · simp [try_trigger, hterm] at h
  · cases hg : alGet m.trans_tbl m.state with
    | none =>
      simp only [try_trigger, hterm, hg] at h ⊢
      simp at h
      simp [← h]
    | some vec =>
      cases hs : scanEdges e vec 0 m.state with
      | error u =>
        simp only [try_trigger, hterm, hg, hs] at h ⊢
        simp at h
        simp [← h]
      | ok ct =>
        obtain ⟨cnt, tmp⟩ := ct
        by_cases hcnt : cnt = 1
        · simp [try_trigger, hterm, hg, hs, hcnt] at h
        · simp [try_trigger, hterm, hg, hs, hcnt] at h


/-! ### Counting registered edges -/

theorem countP_edgesOf_alSet (l : List (T × List (T × (E → Bool)))) (a b : T)
    (p : E → Bool) (f : T × T → Bool) :
    (edgesOf (alSet l a (((alGet l a).getD []) ++ [(b, p)]))).countP f
      = (edgesOf l).countP f + (if f (a, b) then 1 else 0) := by
  induction l with
  | nil =>
    simp [alGet, alSet, edgesOf, List.countP_cons]
  | cons hd rest ih =>
    obtain ⟨k, vs⟩ := hd
    by_cases hk : a = k
    · subst hk
      simp only [alGet, if_pos rfl, Option.getD_some, alSet, if_pos rfl, edgesOf,
        List.map_append, List.countP_append, List.map_cons, List.map_nil,
        List.countP_cons, List.countP_nil]
      by_cases hf : f (a, b) = true <;> simp [hf] <;> omega
    · simp only [alGet, if_neg hk, alSet, if_neg hk, edgesOf, List.countP_append, ih]
      omega

theorem srcCnt_zero_of_absent (l : List (T × List (T × (E → Bool)))) (s : T)
    (h : alGet l s = none) :
    (edgesOf l).countP (fun q => decide (q.1 = s)) = 0 := by
  induction l with
  | nil => simp [edgesOf]
  | cons hd rest ih =>
    obtain ⟨k, vs⟩ := hd
    rw [alGet] at h
    by_cases hk : s = k
    · rw [if_pos hk] at h
      exact absurd h (by simp)
    · rw [if_neg hk] at h
      rw [edgesOf, List.countP_append, ih h, Nat.add_zero, List.countP_eq_zero]
      intro q hq
      rcases List.mem_map.mp hq with ⟨si, _, rfl⟩
      simp only [decide_eq_true_eq]
      exact fun hkk => hk (Eq.symm hkk)

/-! ### The accepted-registration step -/

theorem register_reject (m : FSM T E) (a b : T) (p : E → Bool)
    (h : a = b ∨ ((alGet m.trans_tbl a).getD []).any (fun si => decide (si.1 = b)) = true) :
    register_transition m a b p = (false, m) := by
  rcases h with h | h
  · simp [register_transition, h]
  · by_cases hab : a = b
    · simp [register_transition, hab]
    · simp [register_transition, hab, h]

theorem register_accept_eq (m : FSM T E) (a b : T) (p : E → Bool)
    (hab : a ≠ b)
    (hdup : ((alGet m.trans_tbl a).getD []).any (fun si => decide (si.1 = b)) = false) :
    register_transition m a b p =
      (true,
        { trans_tbl := alSet m.trans_tbl a (((alGet m.trans_tbl a).getD []) ++ [(b, p)])
          edges_tbl := edgesAfter m.edges_tbl a b
          state := m.state }) := by
  simp [register_transition, edgesAfter, hab, hdup]

theorem alGet_ensure_self (l : List (T × (Nat × Nat))) (k : T) :
    alGet (if (alGet l k).isNone then alSet l k (0, 0) else l) k
      = some ((alGet l k).getD (0, 0)) := by
  by_cases h : (alGet l k).isNone = true
  · rw [if_pos h, alGet_alSet_self, Option.isNone_iff_eq_none.mp h]
    rfl
  · rw [if_neg h]
    cases hg : alGet l k with
    | none => rw [hg] at h; simp at h
    | some v => simp [hg]

theorem alGet_ensure_ne (l : List (T × (Nat × Nat))) (k x : T) (h : x ≠ k) :
    alGet (if (alGet l k).isNone then alSet l k (0, 0) else l) x = alGet l x := by
  by_cases hk : (alGet l k).isNone = true
  · rw [if_pos hk]
    exact alGet_alSet_ne l (0, 0) h
  · rw [if_neg hk]

theorem edgesAfter_get_a (et : List (T × (Nat × Nat))) (a b : T) (hab : a ≠ b) :
    alGet (edgesAfter et a b) a
      = some (((alGet et a).getD (0, 0)).1, ((alGet et a).getD (0, 0)).2 + 1) := by
  simp only [edgesAfter]
  rw [alGet_alSet_ne _ _ hab, alGet_alSet_self,
    alGet_ensure_ne _ _ _ hab, alGet_ensure_self]
  rfl

theorem edgesAfter_get_b (et : List (T × (Nat × Nat))) (a b : T) (hab : a ≠ b) :
    alGet (edgesAfter et a b) b
      = some (((alGet et b).getD (0, 0)).1 + 1, ((alGet et b).getD (0, 0)).2) := by
  have hba : b ≠ a := fun h => hab (Eq.symm h)
  simp only [edgesAfter]
  rw [alGet_alSet_self, alGet_alSet_ne _ _ hba, alGet_ensure_self,
    alGet_ensure_ne _ _ _ hba]
  rfl

theorem edgesAfter_get_other (et : List (T × (Nat × Nat))) (a b x : T)
    (hxa : x ≠ a) (hxb : x ≠ b) :
    alGet (edgesAfter et a b) x = alGet et x := by
  simp only [edgesAfter]
  rw [alGet_alSet_ne _ _ hxb, alGet_alSet_ne _ _ hxa,
    alGet_ensure_ne _ _ _ hxb, alGet_ensure_ne _ _ _ hxa]

theorem srcCnt_register_accept (m : FSM T E) (a b : T) (p : E → Bool)
    (hab : a ≠ b)
    (hdup : ((alGet m.trans_tbl a).getD []).any (fun si => decide (si.1 = b)) = false)
    (x : T) :
    srcCnt (register_transition m a b p).2 x
      = srcCnt m x + (if a = x then 1 else 0) := by
  rw [register_accept_eq m a b p hab hdup]
  simp only [srcCnt]
  rw [countP_edgesOf_alSet]
  by_cases hax : a = x <;> simp [hax]

theorem tgtCnt_register_accept (m : FSM T E) (a b : T) (p : E → Bool)
    (hab : a ≠ b)
    (hdup : ((alGet m.trans_tbl a).getD []).any (fun si => decide (si.1 = b)) = false)
    (x : T) :
    tgtCnt (register_transition m a b p).2 x
      = tgtCnt m x + (if b = x then 1 else 0) := by
  rw [register_accept_eq m a b p hab hdup]
  simp only [tgtCnt]
  rw [countP_edgesOf_alSet]
  by_cases hbx : b = x <;> simp [hbx]

/-! ### Preservation of the invariant -/

theorem WF_of_tables {m m' : FSM T E} (ht : m'.trans_tbl = m.trans_tbl)
    (he : m'.edges_tbl = m.edges_tbl) (h : WF m) : WF m' := by
  obtain ⟨hmir, hlen⟩ := h
  refine ⟨fun s => ⟨fun i o hio => ?_, fun hnone => ?_⟩, fun s es hg => ?_⟩
  · rw [he] at hio
    simpa [tgtCnt, srcCnt, ht] using (hmir s).1 i o hio
  · rw [he] at hnone
    simpa [tgtCnt, srcCnt, ht] using (hmir s).2 hnone
  · rw [ht] at hg
    simpa [srcCnt, ht] using hlen s es hg

theorem WF_mk0 (s0 : T) : WF (FSM.mk0 E s0) := by
  refine ⟨fun s => ⟨fun i o hio => ?_, fun _ => ?_⟩, fun s es hg => ?_⟩
  · simp [FSM.mk0, alGet] at hio
  · simp [tgtCnt, srcCnt, FSM.mk0, edgesOf]
  · simp [FSM.mk0, alGet] at hg

theorem WF_register (m : FSM T E) (a b : T) (p : E → Bool) (h : WF m) :
    WF (register_transition m a b p).2 := by
  by_cases hab : a = b
  · rw [register_reject m a b p (Or.inl hab)]
    exact h
  · by_cases hdup : ((alGet m.trans_tbl a).getD []).any (fun si => decide (si.1 = b)) = true
    · rw [register_reject m a b p (Or.inr hdup)]
      exact h
    · have hdup' := eq_false_of_ne_true hdup
      obtain ⟨hmir, hlen⟩ := h
      have hsrc := srcCnt_register_accept m a b p hab hdup'
      have htgt := tgtCnt_register_accept m a b p hab hdup'
      have hba : b ≠ a := fun hh => hab (Eq.symm hh)
      have hmt : (register_transition m a b p).2.trans_tbl
          = alSet m.trans_tbl a (((alGet m.trans_tbl a).getD []) ++ [(b, p)]) := by
        rw [register_accept_eq m a b p hab hdup']
      have hme : (register_transition m a b p).2.edges_tbl
          = edgesAfter m.edges_tbl a b := by
        rw [register_accept_eq m a b p hab hdup']
      have hgd : ∀ s : T, tgtCnt m s = ((alGet m.edges_tbl s).getD (0, 0)).1 ∧
          srcCnt m s = ((alGet m.edges_tbl s).getD (0, 0)).2 := by
        intro s
        cases hg : alGet m.edges_tbl s with
        | none =>
          obtain ⟨h1, h2⟩ := (hmir s).2 hg
          simp [h1, h2]
        | some v =>
          obtain ⟨h1, h2, _⟩ := (hmir s).1 v.1 v.2 (by simpa using hg)
          simp [← h1, ← h2]
      constructor
      · -- Mirror is preserved
        intro s
        constructor
        · intro i o hio
          rw [hme] at hio
          by_cases hsa : s = a
          · rw [hsa, edgesAfter_get_a m.edges_tbl a b hab] at hio
            simp only [Option.some.injEq, Prod.mk.injEq] at hio
            obtain ⟨hi, ho⟩ := hio
            have g1 := (hgd a).1
            have g2 := (hgd a).2
            refine ⟨?_, ?_, by omega⟩
            · rw [htgt s, if_neg (fun hh => hba (hh.trans hsa)), hsa]
              omega
            · rw [hsrc s, if_pos hsa.symm, hsa]
              omega
          · by_cases hsb : s = b
            · rw [hsb, edgesAfter_get_b m.edges_tbl a b hab] at hio
              simp only [Option.some.injEq, Prod.mk.injEq] at hio
              obtain ⟨hi, ho⟩ := hio
              have g1 := (hgd b).1
              have g2 := (hgd b).2
              refine ⟨?_, ?_, by omega⟩
              · rw [htgt s, if_pos hsb.symm, hsb]
                omega
              · rw [hsrc s, if_neg (fun hh => hsa hh.symm), hsb]
                omega
            · rw [edgesAfter_get_other m.edges_tbl a b s hsa hsb] at hio
              obtain ⟨h1, h2, h3⟩ := (hmir s).1 i o hio
              refine ⟨?_, ?_, h3⟩
              · rw [htgt s, if_neg (fun hh => hsb hh.symm)]
                omega
              · rw [hsrc s, if_neg (fun hh => hsa hh.symm)]
                omega
        · intro hnone
          rw [hme] at hnone
          by_cases hsa : s = a
          · rw [hsa, edgesAfter_get_a m.edges_tbl a b hab] at hnone
            exact absurd hnone (by simp)
          · by_cases hsb : s = b
            · rw [hsb, edgesAfter_get_b m.edges_tbl a b hab] at hnone
              exact absurd hnone (by simp)
            · rw [edgesAfter_get_other m.edges_tbl a b s hsa hsb] at hnone
              obtain ⟨h1, h2⟩ := (hmir s).2 hnone
              refine ⟨?_, ?_⟩
              · rw [htgt s, if_neg (fun hh => hsb hh.symm)]
                omega
              · rw [hsrc s, if_neg (fun hh => hsa hh.symm)]
                omega
      · -- TransLen is preserved
        intro s es' hget'
        rw [hmt] at hget'
        by_cases hsa : s = a
        · rw [hsa, alGet_alSet_self] at hget'
          have hes : es' = ((alGet m.trans_tbl a).getD []) ++ [(b, p)] :=
            (Option.some.inj hget').symm
          have hlen0 : srcCnt m a = ((alGet m.trans_tbl a).getD []).length := by
            cases hg : alGet m.trans_tbl a with
            | none => simpa [hg, srcCnt] using srcCnt_zero_of_absent m.trans_tbl a hg
            | some v => simpa [hg] using (hlen a v hg).1
          refine ⟨?_, by simp [hes]⟩
          rw [hsrc s, if_pos hsa.symm, hsa, hlen0, hes]
          simp
        · rw [alGet_alSet_ne _ _ hsa] at hget'
          obtain ⟨h1, h2⟩ := hlen s es' hget'
          refine ⟨?_, h2⟩
          rw [hsrc s, if_neg (fun hh => hsa hh.symm)]
          omega

theorem WF_set_state (m : FSM T E) (s : T) (h : WF m) : WF (set_state m s) :=
  WF_of_tables rfl rfl h

theorem WF_try_trigger (m : FSM T E) (e : E) (o0 n0 : T) (h : WF m) :
    WF (try_trigger m e o0 n0).fsm :=
  WF_of_tables (try_trigger_tables m e o0 n0).1 (try_trigger_tables m e o0 n0).2 h

theorem WF_reachable {m : FSM T E} (h : Reachable m) : WF m := by
  induction h with
  | init s0 => exact WF_mk0 s0
  | reg a b p _ ih => exact WF_register _ a b p ih
  | set s _ ih => exact WF_set_state _ s ih
  | trig e o0 n0 _ ih => exact WF_try_trigger _ e o0 n0 ih

/-- In a well-formed machine, a state with a transition-table entry has
out-degree at least 1, hence is never classified terminal. -/
theorem not_terminated_of_trans (m : FSM T E) (s : T)
    (es : List (T × (E → Bool))) (hwf : WF m)
    (hget : alGet m.trans_tbl s = some es) :
    is_terminated_state m s = false := by
  obtain ⟨hmir, hlen⟩ := hwf
  obtain ⟨hcnt, hne⟩ := hlen s es hget
  unfold is_terminated_state
  cases hg : alGet m.edges_tbl s with
  | none => rfl
  | some io =>
    obtain ⟨_, ho, _⟩ := (hmir s).1 io.1 io.2 (by simpa using hg)
    have hpos : 0 < es.length := List.length_pos.mpr hne
    have : io.2 ≠ 0 := by omega
    simpa using this


/-! ### The timed-trigger loop never mutates the machine on a `false` return -/

theorem timed_loop_ret_false (m : FSM T E) (o0 n0 : T) (abs_time : Timespec)
    (rounds : List (E × Option Timespec)) (o n : T) (m' : FSM T E)
    (h : timed_loop m o0 n0 abs_time rounds = some (.ret false o n m')) :
    m' = m ∧ o = o0 ∧ n = n0 := by
  induction rounds generalizing m o0 n0 with
  | nil => simp [timed_loop] at h
  | cons rd rest ih =>
    obtain ⟨e, clk⟩ := rd
    cases hres : (try_trigger m e o0 n0).res with
    | error err => simp [timed_loop, hres] at h
    | ok bb =>
      cases bb with
      | true => simp [timed_loop, hres] at h
      | false =>
        have hfr := try_trigger_false_frame m e o0 n0 hres
        cases clk with
        | none =>
          simp [timed_loop, hfr] at h
          exact ⟨h.2.2.symm, h.1.symm, h.2.1.symm⟩
        | some cur =>
          by_cases hto : is_timeout abs_time cur = true
          · simp [timed_loop, hfr, hto] at h
            exact ⟨h.2.2.symm, h.1.symm, h.2.1.symm⟩
          · simp [timed_loop, hfr, hto] at h
            exact ih m o0 n0 h

/-! ### Concrete machines used by the witnesses -/

theorem exOne_reachable : Reachable exOne :=
  Reachable.set 0 (Reachable.reg 0 2 (fun _ => true)
    (Reachable.reg 0 1 (fun _ => false) (Reachable.init 0)))

theorem exAmb_reachable : Reachable exAmb :=
  Reachable.set 0 (Reachable.reg 0 2 (fun _ => true)
    (Reachable.reg 0 1 (fun _ => true) (Reachable.init 0)))

theorem exZero_reachable : Reachable exZero :=
  Reachable.set 0 (Reachable.reg 0 1 (fun _ => false) (Reachable.init 0))

theorem exTerm_reachable : Reachable exTerm :=
  Reachable.set 1 (Reachable.reg 0 1 (fun _ => true) (Reachable.init 0))

/-! ### Claims -/

/-- C1: for every reachable FSM whose current state has registered outgoing
edges, if two or more of those edges' predicates evaluate true in a single
`try_trigger` pass, `try_trigger` fails with the ambiguous-transition error
and leaves the machine (in particular the current state) and the output
arguments unmodified; moreover the evaluation loop errors as soon as the
second true match is reached, independently of any edges after it. -/
theorem C1_ambiguous_immediate (m : FSM T E) (e : E) (o0 n0 : T)
    (es : List (T × (E → Bool)))
    (hr : Reachable m)
    (hes : alGet m.trans_tbl m.state = some es)
    (h2 : 2 ≤ es.countP (fun q => q.2 e)) :
    try_trigger m e o0 n0 = ⟨.error .ambiguous_state_error, o0, n0, m⟩
    ∧ (∀ (l1 l2 : List (T × (E → Bool))) (t : T),
        2 ≤ l1.countP (fun q => q.2 e) → scanEdges e (l1 ++ l2) 0 t = .error ()) := by
  have hwf := WF_reachable hr
  have hterm := not_terminated_of_trans m m.state es hwf hes
  constructor
  · have hscan := scanEdges_of_countP_ge_two e es 0 m.state (by omega) (by omega)
    simp [try_trigger, hterm, hes, hscan]
  · intro l1 l2 t hc
    apply scanEdges_of_countP_ge_two e _ 0 t (by omega)
    rw [List.countP_append]
    omega

/-- Witness for C1: both predicates out of state 0 are true, so `try_trigger`
reports the ambiguous-transition error and touches nothing. -/
theorem C1_ambiguous_immediate_witness :
    try_trigger exAmb () 7 8 = ⟨.error .ambiguous_state_error, 7, 8, exAmb⟩ :=
  (C1_ambiguous_immediate exAmb () 7 8 [(1, fun _ => true), (2, fun _ => true)]
    exAmb_reachable rfl (by decide)).1

/-- C2: for every reachable FSM whose current state has registered outgoing
edges, if exactly one of those edges' predicates evaluates true in a
`try_trigger` pass, `try_trigger` reports changed with old = the previous
state and new = that edge's target, updates the current state to the target
(exactly `set_state` to it), and `state()` then returns the target. -/
theorem C2_unique_match (m : FSM T E) (e : E) (o0 n0 : T)
    (es : List (T × (E → Bool)))
    (hr : Reachable m)
    (hes : alGet m.trans_tbl m.state = some es)
    (h1 : es.countP (fun q => q.2 e) = 1) :
    ∀ t pr, (t, pr) ∈ es → pr e = true →
      try_trigger m e o0 n0 = ⟨.ok true, m.state, t, set_state m t⟩
      ∧ state (try_trigger m e o0 n0).fsm = t := by
  intro t pr hmem hpr
  have hwf := WF_reachable hr
  have hterm := not_terminated_of_trans m m.state es hwf hes
  have hscan := scanEdges_of_countP_one e es m.state t pr h1 hmem hpr
  constructor
  · simp [try_trigger, hterm, hes, hscan, set_state]
  · simp [try_trigger, hterm, hes, hscan, state]

/-- Witness for C2, the spec's concrete scenario: register 0→1 always-false
and 0→2 always-true, set state 0; `try_trigger` reports changed with old = 0,
new = 2, and `state()` returns 2. -/
theorem C2_unique_match_witness :
    try_trigger exOne () 7 8 = ⟨.ok true, 0, 2, set_state exOne 2⟩
    ∧ state (try_trigger exOne () 7 8).fsm = 2 :=
  C2_unique_match exOne () 7 8 [(1, fun _ => false), (2, fun _ => true)]
    exOne_reachable rfl (by decide) 2 (fun _ => true)
    (List.Mem.tail _ (List.Mem.head _)) rfl

/-- C3: for every FSM whose current state is terminal, every `try_trigger`
call reports changed with old = new = the current state and does not mutate
the machine; iterating `try_trigger` any number of times leaves the machine
fixed. -/
theorem C3_terminal_fixed_point (m : FSM T E) (e : E) (o0 n0 : T)
    (hterm : is_terminated_state m m.state = true) :
    try_trigger m e o0 n0 = ⟨.ok true, m.state, m.state, m⟩
    ∧ ∀ k, triggerIter e o0 n0 m k = m := by
  have h1 : try_trigger m e o0 n0 = ⟨.ok true, m.state, m.state, m⟩ := by
    simp [try_trigger, hterm]
  refine ⟨h1, ?_⟩
  intro k
  induction k with
  | zero => rfl
  | succ k ih =>
    simp only [triggerIter, h1]
    exact ih

/-- Witness for C3: state 1 is registered only as a target, so it is terminal
and `try_trigger` reports changed with old = new = 1 forever. -/
theorem C3_terminal_fixed_point_witness :
    try_trigger exTerm () 7 8 = ⟨.ok true, 1, 1, exTerm⟩
    ∧ ∀ k, triggerIter () 7 8 exTerm k = exTerm :=
  C3_terminal_fixed_point exTerm () 7 8 rfl

/-- C4: for every FSM whose current state is absent from the transition table
and not terminal, `try_trigger` fails with the invalid-state error and leaves
the machine and the output arguments untouched. -/
theorem C4_invalid_state (m : FSM T E) (e : E) (o0 n0 : T)
    (hterm : is_terminated_state m m.state = false)
    (habs : alGet m.trans_tbl m.state = none) :
    try_trigger m e o0 n0 = ⟨.error .invalid_state_error, o0, n0, m⟩ := by
  simp [try_trigger, hterm, habs]

/-- Witness for C4: a machine initialised with a never-registered state 5. -/
theorem C4_invalid_state_witness :
    try_trigger (FSM.mk0 Unit 5) () 7 8
      = ⟨.error .invalid_state_error, 7, 8, FSM.mk0 Unit 5⟩ :=
  C4_invalid_state (FSM.mk0 Unit 5) () 7 8 rfl rfl

/-- C5: for every reachable FSM whose current state has registered outgoing
edges, if none of those edges' predicates evaluates true in a `try_trigger`
pass, `try_trigger` reports unchanged (returns false) and leaves the machine
and the output arguments untouched. -/
theorem C5_no_match_unchanged (m : FSM T E) (e : E) (o0 n0 : T)
    (es : List (T × (E → Bool)))
    (hr : Reachable m)
    (hes : alGet m.trans_tbl m.state = some es)
    (h0 : es.countP (fun q => q.2 e) = 0) :
    try_trigger m e o0 n0 = ⟨.ok false, o0, n0, m⟩ := by
  have hwf := WF_reachable hr
  have hterm := not_terminated_of_trans m m.state es hwf hes
  have hscan := scanEdges_of_countP_zero e es 0 m.state (by omega) h0
  simp [try_trigger, hterm, hes, hscan]

/-- Witness for C5: one always-false edge out of state 0. -/
theorem C5_no_match_unchanged_witness :
    try_trigger exZero () 7 8 = ⟨.ok false, 7, 8, exZero⟩ :=
  C5_no_match_unchanged exZero () 7 8 [(1, fun _ => false)]
    exZero_reachable rfl (by decide)


/-- C6: `register_transition` returns failure and mutates nothing when source
equals target or when an edge for the exact (source, target) pair is already
registered; otherwise it succeeds and returns true. -/
theorem C6_register_guards (m : FSM T E) (a b : T) (p : E → Bool) :
    ((a = b ∨ ((alGet m.trans_tbl a).getD []).any (fun si => decide (si.1 = b)) = true) →
      register_transition m a b p = (false, m))
    ∧ (a ≠ b →
      ((alGet m.trans_tbl a).getD []).any (fun si => decide (si.1 = b)) = false →
      (register_transition m a b p).1 = true) := by
  constructor
  · exact register_reject m a b p
  · intro hab hdup
    rw [register_accept_eq m a b p hab hdup]

/-- Witness for C6: on a machine holding edge 0→1, a self-loop 0→0 and a
duplicate 0→1 are rejected without mutation, and a fresh edge 0→2 is
accepted. -/
theorem C6_register_guards_witness :
    register_transition exReg1 0 0 (fun _ => true) = (false, exReg1)
    ∧ register_transition exReg1 0 1 (fun _ => true) = (false, exReg1)
    ∧ (register_transition exReg1 0 2 (fun _ => true)).1 = true :=
  ⟨(C6_register_guards exReg1 0 0 (fun _ => true)).1 (Or.inl rfl),
   (C6_register_guards exReg1 0 1 (fun _ => true)).1 (Or.inr (by decide)),
   (C6_register_guards exReg1 0 2 (fun _ => true)).2 (by decide) (by decide)⟩

/-- C7: in every reachable FSM, `is_terminated_state s` is true iff `s` has a
topology entry with out-degree exactly 0; a state absent from the topology is
not terminal; and, via the mirror invariant, terminal is equivalent to being
the source of no registered edge while being the target of at least one. -/
theorem C7_terminal_iff (m : FSM T E) (s : T) (hr : Reachable m) :
    (is_terminated_state m s = true ↔ ∃ i, alGet m.edges_tbl s = some (i, 0))
    ∧ (alGet m.edges_tbl s = none → is_terminated_state m s = false)
    ∧ (is_terminated_state m s = true ↔ srcCnt m s = 0 ∧ 1 ≤ tgtCnt m s) := by
  obtain ⟨hmir, hlen⟩ := WF_reachable hr
  have hfwd : is_terminated_state m s = true → ∃ i, alGet m.edges_tbl s = some (i, 0) := by
    intro h
    unfold is_terminated_state at h
    cases hg : alGet m.edges_tbl s with
    | none => rw [hg] at h; simp at h
    | some io =>
      obtain ⟨i, o⟩ := io
      rw [hg] at h
      have ho : o = 0 := by simpa using h
      exact ⟨i, by rw [ho]⟩
  have hbwd : (∃ i, alGet m.edges_tbl s = some (i, 0)) → is_terminated_state m s = true := by
    rintro ⟨i, hg⟩
    unfold is_terminated_state
    rw [hg]
    rfl
  refine ⟨⟨hfwd, hbwd⟩, ?_, ?_⟩
  · intro hg
    unfold is_terminated_state
    rw [hg]
  · constructor
    · intro h
      obtain ⟨i, hg⟩ := hfwd h
      obtain ⟨h1, h2, h3⟩ := (hmir s).1 i 0 hg
      exact ⟨h2.symm, by omega⟩
    · rintro ⟨hs0, ht1⟩
      apply hbwd
      cases hg : alGet m.edges_tbl s with
      | none =>
        obtain ⟨h1, _⟩ := (hmir s).2 hg
        omega
      | some io =>
        obtain ⟨i, o⟩ := io
        obtain ⟨h1, h2, h3⟩ := (hmir s).1 i o hg
        have ho : o = 0 := by omega
        exact ⟨i, by rw [ho]⟩

/-- Witness for C7 at the terminal state 1 of a reachable machine. -/
theorem C7_terminal_iff_witness :
    (is_terminated_state exTerm 1 = true ↔ ∃ i, alGet exTerm.edges_tbl 1 = some (i, 0))
    ∧ (alGet exTerm.edges_tbl 1 = none → is_terminated_state exTerm 1 = false)
    ∧ (is_terminated_state exTerm 1 = true ↔ srcCnt exTerm 1 = 0 ∧ 1 ≤ tgtCnt exTerm 1) :=
  C7_terminal_iff exTerm 1 exTerm_reachable

/-- C8: in every reachable FSM the topology table exactly mirrors the
registered edge set (`Mirror`), and every accepted registration appends
(target, predicate) to the source's ordered edge list, lazily creates (0, 0)
topology entries for source and target if absent, increments the source's
out-degree and the target's in-degree, and leaves every other topology entry
unchanged. -/
theorem C8_topology_mirror (m : FSM T E) (hr : Reachable m) :
    Mirror m
    ∧ ∀ (a b : T) (p : E → Bool),
        (register_transition m a b p).1 = true →
        ((register_transition m a b p).2.trans_tbl
            = alSet m.trans_tbl a (((alGet m.trans_tbl a).getD []) ++ [(b, p)])
          ∧ alGet (register_transition m a b p).2.edges_tbl a
              = some (((alGet m.edges_tbl a).getD (0, 0)).1,
                  ((alGet m.edges_tbl a).getD (0, 0)).2 + 1)
          ∧ alGet (register_transition m a b p).2.edges_tbl b
              = some (((alGet m.edges_tbl b).getD (0, 0)).1 + 1,
                  ((alGet m.edges_tbl b).getD (0, 0)).2)
          ∧ ∀ x, x ≠ a → x ≠ b →
              alGet (register_transition m a b p).2.edges_tbl x
                = alGet m.edges_tbl x) := by
  refine ⟨(WF_reachable hr).1, ?_⟩
  intro a b p hacc
  by_cases hab : a = b
  · rw [register_reject m a b p (Or.inl hab)] at hacc
    simp at hacc
  · by_cases hdup : ((alGet m.trans_tbl a).getD []).any (fun si => decide (si.1 = b)) = true
    · rw [register_reject m a b p (Or.inr hdup)] at hacc
      simp at hacc
    · have hdup' := eq_false_of_ne_true hdup
      have hmt : (register_transition m a b p).2.trans_tbl
          = alSet m.trans_tbl a (((alGet m.trans_tbl a).getD []) ++ [(b, p)]) := by
        rw [register_accept_eq m a b p hab hdup']
      have hme : (register_transition m a b p).2.edges_tbl
          = edgesAfter m.edges_tbl a b := by
        rw [register_accept_eq m a b p hab hdup']
      refine ⟨hmt, ?_, ?_, ?_⟩
      · rw [hme, edgesAfter_get_a m.edges_tbl a b hab]
      · rw [hme, edgesAfter_get_b m.edges_tbl a b hab]
      · intro x hxa hxb
        rw [hme, edgesAfter_get_other m.edges_tbl a b x hxa hxb]

/-- Witness for C8 on a concrete reachable machine. -/
theorem C8_topology_mirror_witness :
    Mirror exOne
    ∧ ∀ (a b : Nat) (p : Unit → Bool),
        (register_transition exOne a b p).1 = true →
        ((register_transition exOne a b p).2.trans_tbl
            = alSet exOne.trans_tbl a (((alGet exOne.trans_tbl a).getD []) ++ [(b, p)])
          ∧ alGet (register_transition exOne a b p).2.edges_tbl a
              = some (((alGet exOne.edges_tbl a).getD (0, 0)).1,
                  ((alGet exOne.edges_tbl a).getD (0, 0)).2 + 1)
          ∧ alGet (register_transition exOne a b p).2.edges_tbl b
              = some (((alGet exOne.edges_tbl b).getD (0, 0)).1 + 1,
                  ((alGet exOne.edges_tbl b).getD (0, 0)).2)
          ∧ ∀ x, x ≠ a → x ≠ b →
              alGet (register_transition exOne a b p).2.edges_tbl x
                = alGet exOne.edges_tbl x) :=
  C8_topology_mirror exOne exOne_reachable

/-- C9: `timed_trigger` returns true as soon as an underlying `try_trigger`
call reports changed — on the leading call, and inside the retry loop at any
round, independently of that round's clock value and of the remaining rounds;
at any round whose `try_trigger` reports no change, a clock reading that
reaches or passes the absolute deadline makes it return false, as does a
failed clock read; every `false` return of `timed_trigger` leaves the machine
(in particular the current state) and the output arguments exactly as they
were on entry; and when the leading call reports no change, `timed_trigger`
is exactly the retry loop. -/
theorem C9_timed_trigger (m : FSM T E) (o0 n0 : T) (abs_time : Timespec) :
    (∀ (e0 : E) (rounds : List (E × Option Timespec)),
        (try_trigger m e0 o0 n0).res = .ok true →
        timed_trigger m o0 n0 abs_time e0 rounds
          = some (.ret true (try_trigger m e0 o0 n0).old_state
              (try_trigger m e0 o0 n0).new_state (try_trigger m e0 o0 n0).fsm))
    ∧ (∀ (m2 : FSM T E) (o n : T) (e : E) (clk : Option Timespec)
          (rest : List (E × Option Timespec)),
        (try_trigger m2 e o n).res = .ok true →
        timed_loop m2 o n abs_time ((e, clk) :: rest)
          = some (.ret true (try_trigger m2 e o n).old_state
              (try_trigger m2 e o n).new_state (try_trigger m2 e o n).fsm))
    ∧ (∀ (m2 : FSM T E) (o n : T) (e : E) (cur : Timespec)
          (rest : List (E × Option Timespec)),
        (try_trigger m2 e o n).res = .ok false →
        is_timeout abs_time cur = true →
        timed_loop m2 o n abs_time ((e, some cur) :: rest)
          = some (.ret false o n m2))
    ∧ (∀ (m2 : FSM T E) (o n : T) (e : E) (rest : List (E × Option Timespec)),
        (try_trigger m2 e o n).res = .ok false →
        timed_loop m2 o n abs_time ((e, none) :: rest)
          = some (.ret false o n m2))
    ∧ (∀ (e0 : E) (rounds : List (E × Option Timespec)) (o n : T) (m' : FSM T E),
        timed_trigger m o0 n0 abs_time e0 rounds = some (.ret false o n m') →
        m' = m ∧ o = o0 ∧ n = n0)
    ∧ (∀ (e0 : E) (rounds : List (E × Option Timespec)),
        (try_trigger m e0 o0 n0).res = .ok false →
        timed_trigger m o0 n0 abs_time e0 rounds
          = timed_loop m o0 n0 abs_time rounds) := by
  refine ⟨?_, ?_, ?_, ?_, ?_, ?_⟩
  · intro e0 rounds h
    simp [timed_trigger, h]
  · intro m2 o n e clk rest h
    simp [timed_loop, h]
  · intro m2 o n e cur rest h hto
    have hf := try_trigger_false_frame m2 e o n h
    simp [timed_loop, hf, hto]
  · intro m2 o n e rest h
    have hf := try_trigger_false_frame m2 e o n h
    simp [timed_loop, hf]
  · intro e0 rounds o n m' h
    cases hres : (try_trigger m e0 o0 n0).res with
    | error err => simp [timed_trigger, hres] at h
    | ok bb =>
      cases bb with
      | true => simp [timed_trigger, hres] at h
      | false =>
        have hfr := try_trigger_false_frame m e0 o0 n0 hres
        simp only [timed_trigger, hfr] at h
        exact timed_loop_ret_false m o0 n0 abs_time rounds o n m' h
  · intro e0 rounds h0
    have hf0 := try_trigger_false_frame m e0 o0 n0 h0
    simp [timed_trigger, hf0]

/-- Witness for C9 on a machine whose edge 0→1 fires iff the environment bit
is set: a true predicate returns true immediately (leading call and loop
round); with the predicate false, a clock reading past the deadline returns
false and a failed clock read returns false, all leaving the machine
untouched. -/
theorem C9_timed_trigger_witness :
    timed_trigger exClock 7 8 ⟨5, 0⟩ true []
        = some (.ret true (try_trigger exClock true 7 8).old_state
            (try_trigger exClock true 7 8).new_state (try_trigger exClock true 7 8).fsm)
    ∧ timed_loop exClock 7 8 ⟨5, 0⟩ [(true, none)]
        = some (.ret true (try_trigger exClock true 7 8).old_state
            (try_trigger exClock true 7 8).new_state (try_trigger exClock true 7 8).fsm)
    ∧ timed_loop exClock 7 8 ⟨5, 0⟩ [(false, some ⟨6, 0⟩)] = some (.ret false 7 8 exClock)
    ∧ timed_loop exClock 7 8 ⟨5, 0⟩ [(false, none)] = some (.ret false 7 8 exClock)
    ∧ (exClock = exClock ∧ (7 : Nat) = 7 ∧ (8 : Nat) = 8)
    ∧ timed_trigger exClock 7 8 ⟨5, 0⟩ false [(false, some ⟨6, 0⟩)]
        = timed_loop exClock 7 8 ⟨5, 0⟩ [(false, some ⟨6, 0⟩)] :=
  ⟨(C9_timed_trigger exClock 7 8 ⟨5, 0⟩).1 true [] rfl,
   (C9_timed_trigger exClock 7 8 ⟨5, 0⟩).2.1 exClock 7 8 true none [] rfl,
   (C9_timed_trigger exClock 7 8 ⟨5, 0⟩).2.2.1 exClock 7 8 false ⟨6, 0⟩ [] rfl rfl,
   (C9_timed_trigger exClock 7 8 ⟨5, 0⟩).2.2.2.1 exClock 7 8 false [] rfl,
   (C9_timed_trigger exClock 7 8 ⟨5, 0⟩).2.2.2.2.1 false [(false, some ⟨6, 0⟩)] 7 8 exClock rfl,
   (C9_timed_trigger exClock 7 8 ⟨5, 0⟩).2.2.2.2.2 false [(false, some ⟨6, 0⟩)] rfl⟩

/-- C10: `try_trigger` writes its `old_state`/`new_state` output arguments
only on the paths that report changed; on the unchanged result and on both
error paths the arguments keep the values they had on entry, and when it
reports changed, `old_state` holds the pre-call current state and
`new_state` the post-call current state. -/
theorem C10_outputs_only_on_change (m : FSM T E) (e : E) (o0 n0 : T) :
    ((try_trigger m e o0 n0).res = .ok false →
      (try_trigger m e o0 n0).old_state = o0 ∧ (try_trigger m e o0 n0).new_state = n0)
    ∧ (∀ err, (try_trigger m e o0 n0).res = .error err →
      (try_trigger m e o0 n0).old_state = o0 ∧ (try_trigger m e o0 n0).new_state = n0)
    ∧ ((try_trigger m e o0 n0).res = .ok true →
      (try_trigger m e o0 n0).old_state = m.state
      ∧ (try_trigger m e o0 n0).new_state = (try_trigger m e o0 n0).fsm.state) := by
  refine ⟨fun h => ?_, fun err h => ?_, fun h => ?_⟩
  · rw [try_trigger_false_frame m e o0 n0 h]
    exact ⟨rfl, rfl⟩
  · rw [try_trigger_error_frame m e o0 n0 err h]
    exact ⟨rfl, rfl⟩
  · by_cases hterm : is_terminated_state m m.state = true
    · simp [try_trigger, hterm]
    · cases hg : alGet m.trans_tbl m.state with
      | none => simp [try_trigger, hterm, hg] at h
      | some vec =>
        cases hs : scanEdges e vec 0 m.state with
        | error u => simp [try_trigger, hterm, hg, hs] at h
        | ok ct =>
          obtain ⟨cnt, tmp⟩ := ct
          by_cases hc : cnt = 1
          · simp [try_trigger, hterm, hg, hs, hc]
          · have hle := scanEdges_ok_le_one e vec 0 m.state cnt tmp (by omega) hs
            simp [try_trigger, hterm, hg, hs, hc] at h
            omega

/-- Witness for C10: an unchanged pass, an invalid-state failure, and a
changed pass on concrete machines. -/
theorem C10_outputs_only_on_change_witness :
    ((try_trigger exZero () 7 8).old_state = 7 ∧ (try_trigger exZero () 7 8).new_state = 8)
    ∧ ((try_trigger (FSM.mk0 Unit 5) () 7 8).old_state = 7
        ∧ (try_trigger (FSM.mk0 Unit 5) () 7 8).new_state = 8)
    ∧ ((try_trigger exOne () 7 8).old_state = exOne.state
        ∧ (try_trigger exOne () 7 8).new_state = (try_trigger exOne () 7 8).fsm.state) :=
  ⟨(C10_outputs_only_on_change exZero () 7 8).1 rfl,
   (C10_outputs_only_on_change (FSM.mk0 Unit 5) () 7 8).2.1 .invalid_state_error rfl,
   (C10_outputs_only_on_change exOne () 7 8).2.2 rfl⟩


end Qsm
